import Mathlib

/-!
Verification of the mammography preprocessing pipeline in src/preprocess.py.

A 2-D numpy array is modelled as a list of rows of rational pixel values;
float arithmetic is modelled exactly over the rationals.  cv2 primitives whose
output the pipeline merely consumes (contour detection, contour area, the point
set painted by a FILLED drawContours) are modelled as an abstract capability
record, since they are external library collaborators of the repository code.
-/

namespace Mammo

/-- A 2-D intensity or label array: a list of rows. -/
abbrev Img : Type := List (List ℚ)

/-- Number of rows, numpy shape[0]. -/
def rowsOf (img : Img) : ℕ := img.length

/-- Number of columns, numpy shape[1], read off the first row. -/
def colsOf (img : Img) : ℕ := (img.headD []).length

/-- numpy shape (h, w). -/
def shape (img : Img) : ℕ × ℕ := (rowsOf img, colsOf img)

/-- Well-formed rectangular array: every row has the common width. -/
def Wf (img : Img) : Prop := ∀ r ∈ img, r.length = colsOf img

instance (img : Img) : Decidable (Wf img) :=
  List.decidableBAll (fun (r : List ℚ) => r.length = colsOf img) img

/-- Pixel access img[i][j], returning 0 out of bounds. -/
def pixel (img : Img) (i j : ℕ) : ℚ := (img.getD i []).getD j 0

/-- np.fliplr: reverse each row. -/
def fliplr (img : Img) : Img := img.map List.reverse

/-- np.sum(img, axis=0): the list of per-column sums. -/
def colSums (img : Img) : List ℚ :=
  (List.range (colsOf img)).map (fun j => (img.map (fun r => r.getD j 0)).sum)

/-- np.array_split(l, 2): the first part receives the extra element when the
length is odd. -/
def arraySplit2 (l : List ℚ) : List ℚ × List ℚ :=
  (l.take ((l.length + 1) / 2), l.drop ((l.length + 1) / 2))

/-- MammoPreprocessorBase._correct_side: compare the summed pixel values of the
two column halves; keep the image when the left sum is strictly larger,
otherwise flip the image (and the mask when present) horizontally. -/
def correct_side (img : Img) (mask : Option Img) : Img × Option Img :=
  let colSumsSplit := arraySplit2 (colSums img)
  let leftColSum := colSumsSplit.1.sum
  let rightColSum := colSumsSplit.2.sum
  if leftColSum > rightColSum then (img, mask)
  else (fliplr img, mask.map fliplr)

/-- cv2.copyMakeBorder(img, 0, 0, 0, k, BORDER_CONSTANT, value=0): append k
zero-valued columns on the right of every row. -/
def copyMakeBorderRight (img : Img) (k : ℕ) : Img :=
  img.map (fun r => r ++ List.replicate k 0)

/-- cv2.resize(img, (W, H)) with INTER_NEAREST: destination (i, j) reads the
source pixel (min ⌊i * h / H⌋ (h - 1), min ⌊j * w / W⌋ (w - 1)). -/
def resizeNearest (img : Img) (W H : ℕ) : Img :=
  (List.range H).map (fun i =>
    (List.range W).map (fun j =>
      pixel img (min (i * rowsOf img / H) (rowsOf img - 1))
                (min (j * colsOf img / W) (colsOf img - 1))))

/-- Half-pixel-centre source coordinate used by cv2.resize. -/
def srcCoord (dst srcN dstN : ℕ) : ℚ := ((dst : ℚ) + 1 / 2) * srcN / dstN - 1 / 2

/-- Clamp an integer coordinate into [0, n - 1]. -/
def clampCoord (n : ℕ) (z : ℤ) : ℕ := (min (max z 0) ((n : ℤ) - 1)).toNat

/-- Bilinear sample of img at a rational source coordinate (fy, fx), edges
clamped: cv2 INTER_LINEAR semantics in exact arithmetic. -/
def sampleBilinear (img : Img) (fy fx : ℚ) : ℚ :=
  let y0 : ℤ := ⌊fy⌋
  let x0 : ℤ := ⌊fx⌋
  let dy : ℚ := fy - y0
  let dx : ℚ := fx - x0
  let p : ℤ → ℤ → ℚ := fun yy xx =>
    pixel img (clampCoord (rowsOf img) yy) (clampCoord (colsOf img) xx)
  (1 - dy) * (1 - dx) * p y0 x0 + (1 - dy) * dx * p y0 (x0 + 1)
    + dy * (1 - dx) * p (y0 + 1) x0 + dy * dx * p (y0 + 1) (x0 + 1)

/-- cv2.resize(img, (W, H)) with the default smooth (bilinear) interpolation. -/
def resizeLinear (img : Img) (W H : ℕ) : Img :=
  (List.range H).map (fun i =>
    (List.range W).map (fun j =>
      sampleBilinear img (srcCoord i (rowsOf img) H) (srcCoord j (colsOf img) W)))

/-- MammoPreprocessorBase._padresize_to_width.  Both width tests read the width
of the original image, exactly as the source does (the local w is not updated
after padding). -/
def padresize_to_width (img : Img) (size : ℕ × ℕ) (mask : Option Img) :
    Img × Option Img :=
  let w := colsOf img
  let padded : Img × Option Img :=
    if w < size.2 then
      (copyMakeBorderRight img (size.2 - w),
       mask.map (fun m => copyMakeBorderRight m (size.2 - w)))
    else (img, mask)
  if w > size.2 then
    (resizeLinear padded.1 size.2 size.1,
     padded.2.map (fun m => resizeNearest m size.2 size.1))
  else padded

/-- MammoPreprocessorBase._resize_to_height: r = h / w and
new_size = (int(size[0] / r), size[0]).  Python int() truncates, which on
positive arguments is ⌊size[0] * w / h⌋, i.e. natural division. -/
def resize_to_height (img : Img) (size : ℕ × ℕ) (mask : Option Img) :
    Img × Option Img :=
  let newW := size.1 * colsOf img / rowsOf img
  (resizeLinear img newW size.1,
   mask.map (fun m => resizeNearest m newW size.1))

/-- The maximum pixel value img.max(), 0 for an empty array. -/
def imgMax (img : Img) : ℚ := (img.map (fun r => r.foldr max 0)).foldr max 0

/-- MammoPreprocessorBase._binarize: (img > img.max() * 0.05).astype(uint8). -/
def binarize (img : Img) : Img :=
  img.map (List.map (fun p => if imgMax img * (5 / 100) < p then (1 : ℚ) else 0))

/-- A cv2 contour: a list of (x, y) points. -/
abbrev Contour : Type := List (ℕ × ℕ)

/-- The cv2 primitives the pipeline consumes, as an abstract capability:
external contour detection on a binary image, contour area, and the point set
painted when a contour is drawn FILLED. -/
structure CvEnv where
  findContours : Img → List Contour
  contourArea : Contour → ℚ
  filledRegion : Contour → List (ℕ × ℕ)

/-- Failure outcomes of the pipeline steps.  valueErrorEmptyMax is the generic
ValueError that Python raises from max() on an empty sequence; degenerateRegion
is the dedicated error kind named by the specification, listed here only so the
two can be compared — no code path of the source produces it. -/
inductive Err : Type where
  | valueErrorEmptyMax : Err
  | degenerateRegion : Err
deriving DecidableEq

/-- Python max(l, key=k): raises ValueError on an empty sequence, otherwise
returns the first element of maximal key. -/
def pymaxBy (k : Contour → ℚ) : List Contour → Except Err Contour
  | [] => .error .valueErrorEmptyMax
  | c :: cs => .ok (cs.foldl (fun b a => if k b < k a then a else b) c)

/-- MammoPreprocessorBase._find_contours: max(contours, key=cv2.contourArea). -/
def find_contours (env : CvEnv) (binImg : Img) : Except Err Contour :=
  pymaxBy env.contourArea (env.findContours binImg)

/-- np.min over a list of naturals (the empty case never arises on contours). -/
def npMinN (l : List ℕ) : ℕ := l.foldr min (l.headD 0)

/-- np.max over a list of naturals. -/
def npMaxN (l : List ℕ) : ℕ := l.foldr max 0

/-- Python 2-D slice img[y1:y2, x1:x2]. -/
def slice2d (img : Img) (y1 y2 x1 x2 : ℕ) : Img :=
  ((img.drop y1).take (y2 - y1)).map (fun r => (r.drop x1).take (x2 - x1))

/-- MammoPreprocessorBase._crop_roi: bounding box of the largest contour of the
binarized image, then the same slice of image and mask. -/
def crop_roi (env : CvEnv) (img : Img) (mask : Option Img) :
    Except Err (Img × Option Img) := do
  let contour ← find_contours env (binarize img)
  let x1 := npMinN (contour.map Prod.fst)
  let x2 := npMaxN (contour.map Prod.fst)
  let y1 := npMinN (contour.map Prod.snd)
  let y2 := npMaxN (contour.map Prod.snd)
  return (slice2d img y1 y2 x1 x2, mask.map (fun m => slice2d m y1 y2 x1 x2))

/-- cv2.drawContours(np.zeros(shape, uint8), [contour], -1, 255, FILLED):
paints the value 255 on the filled contour region. -/
def drawContoursFilled (h w : ℕ) (pts : List (ℕ × ℕ)) : Img :=
  (List.range h).map (fun i =>
    (List.range w).map (fun j => if (j, i) ∈ pts then (255 : ℚ) else 0))

/-- Elementwise numpy product img * mask in exact arithmetic. -/
def imgMul (a b : Img) : Img := List.zipWith (List.zipWith (· * ·)) a b

/-- MammoPreprocessorBase._remove_background with the default
remove_wlines=False (the white-lines branch is skipped). -/
def remove_background (env : CvEnv) (img : Img) : Except Err Img := do
  let binImg := binarize img
  let contour ← find_contours env binImg
  let mask := drawContoursFilled (rowsOf binImg) (colsOf binImg)
    (env.filledRegion contour)
  return imgMul img mask

/-- numpy astype(uint8) of a nonnegative float: truncate, then wrap mod 256. -/
def toUint8 (q : ℚ) : ℚ := ((⌊q⌋.toNat % 256 : ℕ) : ℚ)

/-- MammoPreprocessorBase._convert_to_8bit:
(img / img.max() * 255).astype(np.uint8). -/
def convert_to_8bit (img : Img) : Img :=
  img.map (List.map (fun p => toUint8 (p / imgMax img * 255)))

/-- Linear branch of MammoPreprocessorRSNA._windowing, per pixel.  The three
boolean index masks below, above and between partition the pixels, so the
vectorised update of the source is a per-pixel map. -/
def windowLinearPixel (center width : ℚ) (bitsStored : ℕ) (p : ℚ) : ℚ :=
  let yRange : ℚ := 2 ^ bitsStored - 1
  let c := center - 1 / 2
  let w := width - 1
  if p ≤ c - w / 2 then 0
  else if c + w / 2 < p then yRange
  else ((p - c) / w + 1 / 2) * yRange

/-- Linear branch of _windowing applied to the whole array. -/
def windowingLinear (center width : ℚ) (bitsStored : ℕ) (img : Img) : Img :=
  img.map (List.map (windowLinearPixel center width bitsStored))

/-- One row of the merged CBIS-DDSM metadata table, carrying the externally
decoded pixel data of its ROI mask file and the numeric pathology code
(1 benign, 2 malignant). -/
structure MaskRow where
  full_img_fname : String
  maskPixelData : Img
  pathology : ℚ

/-- (dicom pixelData / 255).astype(np.uint8) for one mask file. -/
def maskPx (raw : Img) : Img := raw.map (List.map (fun v => toUint8 (v / 255)))

/-- Result of _combine_masks: the Python code starts from the int 0 and adds
ndarrays, so with no matching metadata row the result stays the scalar 0
rather than becoming an array. -/
inductive Labels : Type where
  | scalar : ℚ → Labels
  | arr : Img → Labels
deriving DecidableEq

/-- Elementwise numpy sum a + b. -/
def imgAdd (a b : Img) : Img := List.zipWith (List.zipWith (· + ·)) a b

/-- numpy scalar product m * c. -/
def scaleImg (c : ℚ) (m : Img) : Img := m.map (List.map (fun p => p * c))

/-- numpy broadcast of labels += m over the two states of the accumulator. -/
def addLabels : Labels → Img → Labels
  | .scalar q, m => .arr (m.map (List.map (fun p => q + p)))
  | .arr a, m => .arr (imgAdd a m)

/-- MammoPreprocessorCBISDDSM._combine_masks: select the metadata rows whose
full_img_fname equals the image path, then accumulate mask_px * pathology. -/
def combine_masks (df : List MaskRow) (path : String) : Labels :=
  let imageInfo := df.filter (fun r => r.full_img_fname == path)
  imageInfo.foldl
    (fun labels r => addLabels labels (scaleImg r.pathology (maskPx r.maskPixelData)))
    (.scalar 0)

/-- Value of a Labels result at (i, j), with numpy scalar broadcast. -/
def labelAt : Labels → ℕ → ℕ → ℚ
  | .scalar q, _, _ => q
  | .arr m, i, j => pixel m i j

/-- The all-zero h by w image. -/
def zeroImg (h w : ℕ) : Img := List.replicate h (List.replicate w 0)

/-- Modelled from the spec, for comparison with the source in claim C7: the
specification describes the per-pixel mask binarization as any nonzero value
becoming 1. -/
def maskBinarizeSpec (v : ℚ) : ℚ := if v = 0 then 0 else 1

/-- A concrete cv2 capability that finds no contour anywhere, matching the
documented cv2.findContours output on an all-zero binary image. -/
def envNone : CvEnv :=
  { findContours := fun _ => []
    contourArea := fun _ => 0
    filledRegion := fun _ => [] }

/-- A concrete cv2 capability returning the single-point contour (0, 0) with
filled region {(0, 0)}, matching cv2 on a 1 by 1 foreground image. -/
def envUnit : CvEnv :=
  { findContours := fun _ => [[(0, 0)]]
    contourArea := fun _ => 0
    filledRegion := fun _ => [(0, 0)] }

/-! Basic shape lemmas. -/

theorem rowsOf_fliplr (img : Img) : rowsOf (fliplr img) = rowsOf img := by
  simp [rowsOf, fliplr]

theorem colsOf_fliplr (img : Img) : colsOf (fliplr img) = colsOf img := by
  cases img with
  | nil => rfl
  | cons r t => simp [colsOf, fliplr]

theorem shape_fliplr (img : Img) : shape (fliplr img) = shape img := by
  simp [shape, rowsOf_fliplr, colsOf_fliplr]

theorem rowsOf_rangeGrid (H : ℕ) (f : ℕ → List ℚ) :
    rowsOf ((List.range H).map f) = H := by
  simp [rowsOf]

theorem colsOf_rangeGrid (H W : ℕ) (g : ℕ → ℕ → ℚ) :
    colsOf ((List.range H).map (fun i => (List.range W).map (g i)))
      = if H = 0 then 0 else W := by
  cases H with
  | zero => rfl
  | succ n => simp [colsOf, List.range_succ_eq_map]

theorem rowsOf_resizeLinear (img : Img) (W H : ℕ) :
    rowsOf (resizeLinear img W H) = H :=
  rowsOf_rangeGrid H _

theorem colsOf_resizeLinear (img : Img) (W H : ℕ) :
    colsOf (resizeLinear img W H) = if H = 0 then 0 else W :=
  colsOf_rangeGrid H W _

theorem rowsOf_resizeNearest (img : Img) (W H : ℕ) :
    rowsOf (resizeNearest img W H) = H :=
  rowsOf_rangeGrid H _

theorem colsOf_resizeNearest (img : Img) (W H : ℕ) :
    colsOf (resizeNearest img W H) = if H = 0 then 0 else W :=
  colsOf_rangeGrid H W _

theorem shape_resize_eq (a b : Img) (W H : ℕ) :
    shape (resizeLinear a W H) = shape (resizeNearest b W H) := by
  simp [shape, rowsOf_resizeLinear, rowsOf_resizeNearest, colsOf_resizeLinear,
    colsOf_resizeNearest]

theorem rowsOf_pad (img : Img) (k : ℕ) :
    rowsOf (copyMakeBorderRight img k) = rowsOf img := by
  simp [rowsOf, copyMakeBorderRight]

theorem colsOf_pad (img : Img) (k : ℕ) :
    colsOf (copyMakeBorderRight img k)
      = if rowsOf img = 0 then 0 else colsOf img + k := by
  cases img with
  | nil => rfl
  | cons r t => simp [colsOf, copyMakeBorderRight, rowsOf]

theorem rowsOf_slice2d (img : Img) (y1 y2 x1 x2 : ℕ) :
    rowsOf (slice2d img y1 y2 x1 x2) = min (y2 - y1) (rowsOf img - y1) := by
  simp [slice2d, rowsOf]

theorem colsOf_slice2d (img : Img) (y1 y2 x1 x2 : ℕ) (hw : Wf img) :
    colsOf (slice2d img y1 y2 x1 x2)
      = if min (y2 - y1) (rowsOf img - y1) = 0 then 0
        else min (x2 - x1) (colsOf img - x1) := by
  have hlen : ((img.drop y1).take (y2 - y1)).length
      = min (y2 - y1) (rowsOf img - y1) := by
    simp [rowsOf]
  cases hl : (img.drop y1).take (y2 - y1) with
  | nil =>
    rw [hl] at hlen
    simp [slice2d, hl, colsOf, ← hlen]
  | cons r t =>
    rw [hl] at hlen
    have hr : r ∈ img :=
      List.mem_of_mem_drop (List.mem_of_mem_take (hl ▸ List.mem_cons_self r t))
    have hrlen : r.length = colsOf img := hw r hr
    rw [slice2d, hl, ← hlen]
    simp [colsOf, hrlen]

/-! Fold-max lemmas for the image maximum. -/

theorem le_foldr_max (l : List ℚ) (a x : ℚ) (hx : x ∈ l) : x ≤ l.foldr max a := by
  induction l with
  | nil => cases hx
  | cons y t ih =>
    rcases List.mem_cons.mp hx with h | h
    · subst h; exact le_max_left _ _
    · exact le_trans (ih h) (le_max_right _ _)

theorem init_le_foldr_max (l : List ℚ) (a : ℚ) : a ≤ l.foldr max a := by
  induction l with
  | nil => simp
  | cons y t ih => exact le_trans ih (le_max_right _ _)

theorem foldr_max_mem (l : List ℚ) (a : ℚ) :
    l.foldr max a = a ∨ l.foldr max a ∈ l := by
  induction l with
  | nil => left; rfl
  | cons y t ih =>
    rcases max_choice y (t.foldr max a) with h | h
    · right; rw [List.foldr_cons, h]; exact List.mem_cons_self y t
    · rcases ih with h2 | h2
      · left; rw [List.foldr_cons, h, h2]
      · right; rw [List.foldr_cons, h]; exact List.mem_cons_of_mem y h2

theorem pixel_le_imgMax (img : Img) (r : List ℚ) (p : ℚ)
    (hr : r ∈ img) (hp : p ∈ r) : p ≤ imgMax img :=
  le_trans (le_foldr_max r 0 p hp)
    (le_foldr_max _ 0 _ (List.mem_map_of_mem _ hr))

theorem imgMax_nonneg (img : Img) : 0 ≤ imgMax img :=
  init_le_foldr_max _ 0

theorem imgMax_attained (img : Img) (h : imgMax img ≠ 0) :
    ∃ r ∈ img, imgMax img ∈ r := by
  rcases foldr_max_mem (img.map (fun r => r.foldr max 0)) 0 with h1 | h1
  · exact absurd h1 h
  · rcases List.mem_map.mp h1 with ⟨r, hr, hrmax⟩
    refine ⟨r, hr, ?_⟩
    rcases foldr_max_mem r 0 with h2 | h2
    · rw [h2] at hrmax
      exact absurd hrmax.symm h
    · show imgMax img ∈ r
      rw [imgMax, ← hrmax]
      exact h2

/-! Pixel access lemmas. -/

theorem getD_map_of_lt {α β : Type} (l : List α) (f : α → β) (j : ℕ)
    (hj : j < l.length) (d : β) (d2 : α) :
    (l.map f).getD j d = f (l.getD j d2) := by
  rw [List.getD_eq_getElem?_getD, List.getD_eq_getElem?_getD, List.getElem?_map,
    List.getElem?_eq_getElem hj]
  rfl

theorem getD_zipWith_of_lt {α : Type} (f : α → α → α) (xs ys : List α) (j : ℕ)
    (hx : j < xs.length) (hy : j < ys.length) (d dx dy : α) :
    (List.zipWith f xs ys).getD j d = f (xs.getD j dx) (ys.getD j dy) := by
  rw [List.getD_eq_getElem?_getD, List.getD_eq_getElem?_getD,
    List.getD_eq_getElem?_getD, List.getElem?_zipWith,
    List.getElem?_eq_getElem hx, List.getElem?_eq_getElem hy]
  rfl

theorem getD_rangeMap_of_lt {β : Type} (n i : ℕ) (g : ℕ → β) (hi : i < n) (d : β) :
    ((List.range n).map g).getD i d = g i := by
  rw [List.getD_eq_getElem?_getD, List.getElem?_map, List.getElem?_range hi]
  rfl

theorem getD_mem_of_lt {α : Type} (l : List α) (n : ℕ) (d : α)
    (h : n < l.length) : l.getD n d ∈ l := by
  rw [List.getD_eq_getElem?_getD, List.getElem?_eq_getElem h]
  exact List.getElem_mem h

theorem pixel_drawContoursFilled (h w : ℕ) (pts : List (ℕ × ℕ)) (i j : ℕ)
    (hi : i < h) (hj : j < w) :
    pixel (drawContoursFilled h w pts) i j
      = if (j, i) ∈ pts then 255 else 0 := by
  rw [pixel, drawContoursFilled, getD_rangeMap_of_lt h i _ hi,
    getD_rangeMap_of_lt w j _ hj]

theorem pixel_imgMul (a b : Img) (i j : ℕ)
    (hia : i < a.length) (hib : i < b.length)
    (hja : j < (a.getD i []).length) (hjb : j < (b.getD i []).length) :
    pixel (imgMul a b) i j = pixel a i j * pixel b i j := by
  rw [pixel, imgMul, getD_zipWith_of_lt _ a b i hia hib [] [] []]
  rw [getD_zipWith_of_lt _ _ _ j hja hjb 0 0 0]
  rfl

theorem pixel_imgAdd (a b : Img) (i j : ℕ)
    (hia : i < a.length) (hib : i < b.length)
    (hja : j < (a.getD i []).length) (hjb : j < (b.getD i []).length) :
    pixel (imgAdd a b) i j = pixel a i j + pixel b i j := by
  rw [pixel, imgAdd, getD_zipWith_of_lt _ a b i hia hib [] [] []]
  rw [getD_zipWith_of_lt _ _ _ j hja hjb 0 0 0]
  rfl

theorem pixel_mapmap (f : ℚ → ℚ) (m : Img) (i j : ℕ)
    (hi : i < m.length) (hj : j < (m.getD i []).length) :
    pixel (m.map (List.map f)) i j = f (pixel m i j) := by
  rw [pixel, getD_map_of_lt m (List.map f) i hi [] [],
    getD_map_of_lt _ f j hj 0 0]
  rfl

/-- C5: in the linear branch of the windowing transform, with c = center - 1/2,
w = width - 1 and yRange = 2 ^ bitsStored - 1, a pixel value at most c - w / 2
maps to 0, a pixel value strictly above c + w / 2 maps to yRange, and a pixel
value strictly between maps to ((p - c) / w + 1/2) * yRange; in particular the
pixel exactly at c - w / 2 maps to 0 and the pixel exactly at c + w / 2 maps to
yRange through the interpolation formula, because the high cut is strict. -/
theorem windowing_linear_branch (center width : ℚ) (bitsStored : ℕ) (p : ℚ)
    (hw : 1 < width) :
    (p ≤ (center - 1 / 2) - (width - 1) / 2 →
      windowLinearPixel center width bitsStored p = 0)
    ∧ ((center - 1 / 2) + (width - 1) / 2 < p →
      windowLinearPixel center width bitsStored p = 2 ^ bitsStored - 1)
    ∧ ((center - 1 / 2) - (width - 1) / 2 < p
        ∧ p ≤ (center - 1 / 2) + (width - 1) / 2 →
      windowLinearPixel center width bitsStored p
        = ((p - (center - 1 / 2)) / (width - 1) + 1 / 2) * (2 ^ bitsStored - 1))
    ∧ windowLinearPixel center width bitsStored
        ((center - 1 / 2) - (width - 1) / 2) = 0
    ∧ windowLinearPixel center width bitsStored
        ((center - 1 / 2) + (width - 1) / 2) = 2 ^ bitsStored - 1 := by
  have hzero : (0 : ℚ) < width - 1 := by linarith
  refine ⟨fun h => ?_, fun h => ?_, fun h => ?_, ?_, ?_⟩
  · simp only [windowLinearPixel]
    rw [if_pos h]
  · simp only [windowLinearPixel]
    rw [if_neg (by linarith), if_pos h]
  · simp only [windowLinearPixel]
    rw [if_neg (not_le.mpr h.1), if_neg (not_lt.mpr h.2)]
  · simp only [windowLinearPixel]
    rw [if_pos le_rfl]
  · simp only [windowLinearPixel]
    rw [if_neg (by linarith), if_neg (lt_irrefl _)]
    have hne : width - 1 ≠ 0 := ne_of_gt hzero
    field_simp
    ring

/-- C5 witness at center 100, width 3, bitsStored 8, pixel 5. -/
theorem windowing_linear_branch_witness :
    (1 : ℚ) < 3
    ∧ (((5 : ℚ) ≤ ((100 : ℚ) - 1 / 2) - ((3 : ℚ) - 1) / 2 →
        windowLinearPixel 100 3 8 5 = 0)
      ∧ (((100 : ℚ) - 1 / 2) + ((3 : ℚ) - 1) / 2 < 5 →
        windowLinearPixel 100 3 8 5 = 2 ^ 8 - 1)
      ∧ (((100 : ℚ) - 1 / 2) - ((3 : ℚ) - 1) / 2 < 5
          ∧ (5 : ℚ) ≤ ((100 : ℚ) - 1 / 2) + ((3 : ℚ) - 1) / 2 →
        windowLinearPixel 100 3 8 5
          = (((5 : ℚ) - ((100 : ℚ) - 1 / 2)) / ((3 : ℚ) - 1) + 1 / 2) * (2 ^ 8 - 1))
      ∧ windowLinearPixel 100 3 8 (((100 : ℚ) - 1 / 2) - ((3 : ℚ) - 1) / 2) = 0
      ∧ windowLinearPixel 100 3 8 (((100 : ℚ) - 1 / 2) + ((3 : ℚ) - 1) / 2)
        = 2 ^ 8 - 1) :=
  ⟨by norm_num, windowing_linear_branch 100 3 8 5 (by norm_num)⟩

/-- C6 counterexample: on a 3 by 2 image with target height 7 the produced
width is 4 = int(7 / (3 / 2)) by truncation, while round(7 / (3 / 2)) = 5, so
the claimed width round(H / (h / w)) is wrong. -/
theorem resize_to_height_truncates_not_rounds :
    colsOf ((resize_to_height [[1, 2], [3, 4], [5, 6]] (7, 5) none).1) = 4
    ∧ round ((7 : ℚ) / ((3 : ℚ) / 2)) = 5 := by
  constructor
  · simp only [resize_to_height]
    rw [colsOf_resizeLinear]
    norm_num [colsOf, rowsOf]
  · rw [round_eq]
    have h73 : (7 : ℚ) / ((3 : ℚ) / 2) + 1 / 2 = 31 / 6 := by norm_num
    rw [h73]
    have h315 : ⌊(31 : ℚ) / 6⌋ = 5 := by
      rw [Int.floor_eq_iff]
      constructor <;> norm_num
    rw [h315]

/-- C6 amended: resize_to_height returns output of height exactly size.1 and
width int(size.1 / (h / w)) — Python int() truncation, modelled by natural
division size.1 * w / h — for both the image and the optional mask; the width
is not required to equal the target width size.2. -/
theorem resize_to_height_dims (img : Img) (mask : Option Img) (size : ℕ × ℕ)
    (hH : 0 < size.1) :
    shape (resize_to_height img size mask).1
      = (size.1, size.1 * colsOf img / rowsOf img)
    ∧ (resize_to_height img size mask).2.map shape
      = mask.map (fun _ => (size.1, size.1 * colsOf img / rowsOf img)) := by
  constructor
  · simp [resize_to_height, shape, rowsOf_resizeLinear, colsOf_resizeLinear,
      hH.ne']
  · cases mask with
    | none => rfl
    | some m =>
      simp [resize_to_height, shape, rowsOf_resizeNearest, colsOf_resizeNearest,
        hH.ne']

/-- C6 witness: a 2 by 3 image resized to target height 4 has shape (4, 6). -/
theorem resize_to_height_dims_witness :
    0 < (4, 9).1
    ∧ (shape (resize_to_height [[1, 2, 3], [4, 5, 6]] (4, 9) none).1
        = ((4, 9).1, (4, 9).1 * colsOf [[1, 2, 3], [4, 5, 6]]
            / rowsOf [[1, 2, 3], [4, 5, 6]])
      ∧ (resize_to_height [[1, 2, 3], [4, 5, 6]] (4, 9) none).2.map shape
        = Option.map (fun (_ : Img) => ((4, 9).1,
            (4, 9).1 * colsOf [[1, 2, 3], [4, 5, 6]]
              / rowsOf [[1, 2, 3], [4, 5, 6]])) (none : Option Img)) :=
  ⟨by norm_num, resize_to_height_dims [[1, 2, 3], [4, 5, 6]] none (4, 9) (by norm_num)⟩

/-- C3 counterexample: on the image [[1, 0], [0, 1]] the two half-sums are
equal, yet _correct_side flips the image instead of returning it unchanged, so
mirroring does not happen only when the right sum strictly exceeds the left. -/
theorem correct_side_flips_on_tie :
    (arraySplit2 (colSums [[1, 0], [0, 1]])).1.sum
      = (arraySplit2 (colSums [[1, 0], [0, 1]])).2.sum
    ∧ correct_side [[1, 0], [0, 1]] none = ([[0, 1], [1, 0]], none)
    ∧ ([[0, 1], [1, 0]] : Img) ≠ ([[1, 0], [0, 1]] : Img) := by
  refine ⟨?_, ?_, ?_⟩ <;>
    simp [correct_side, arraySplit2, colSums, colsOf, fliplr, List.range_succ]

/-- C3 amended: _correct_side returns the input unchanged exactly when the left
half-sum strictly exceeds the right half-sum, and mirrors the image (and mask)
horizontally exactly when the right half-sum is greater than or equal to the
left half-sum — a tie also mirrors. -/
theorem correct_side_flip_cases (img : Img) (mask : Option Img) :
    ((arraySplit2 (colSums img)).2.sum < (arraySplit2 (colSums img)).1.sum →
      correct_side img mask = (img, mask))
    ∧ ((arraySplit2 (colSums img)).1.sum ≤ (arraySplit2 (colSums img)).2.sum →
      correct_side img mask = (fliplr img, mask.map fliplr)) := by
  refine ⟨fun h => ?_, fun h => ?_⟩
  · simp only [correct_side]
    split_ifs with hc
    · rfl
    · exact absurd h hc
  · simp only [correct_side]
    split_ifs with hc
    · exact absurd hc (not_lt.mpr h)
    · rfl

/-- C3 witness: an image brighter on the right is flipped. -/
theorem correct_side_flip_cases_witness :
    correct_side [[(0 : ℚ), 1]] none = (fliplr [[(0 : ℚ), 1]], none) :=
  (correct_side_flip_cases [[(0 : ℚ), 1]] none).2
    (by simp [arraySplit2, colSums, colsOf, List.range_succ])

/-! Branch characterisation of _padresize_to_width, shared by several proofs. -/

theorem padresize_branches (img : Img) (mask : Option Img) (size : ℕ × ℕ) :
    (colsOf img < size.2 →
      padresize_to_width img size mask
        = (copyMakeBorderRight img (size.2 - colsOf img),
           mask.map (fun m => copyMakeBorderRight m (size.2 - colsOf img))))
    ∧ (size.2 < colsOf img →
      padresize_to_width img size mask
        = (resizeLinear img size.2 size.1,
           mask.map (fun m => resizeNearest m size.2 size.1)))
    ∧ (colsOf img = size.2 → padresize_to_width img size mask = (img, mask)) := by
  refine ⟨fun h => ?_, fun h => ?_, fun h => ?_⟩
  · simp only [padresize_to_width]
    have h2 : ¬ colsOf img > size.2 := by omega
    rw [if_neg h2, if_pos h]
  · simp only [padresize_to_width]
    have h2 : ¬ colsOf img < size.2 := by omega
    have h3 : colsOf img > size.2 := h
    rw [if_pos h3, if_neg h2]
  · simp only [padresize_to_width]
    have h2 : ¬ colsOf img < size.2 := by omega
    have h3 : ¬ colsOf img > size.2 := by omega
    rw [if_neg h3, if_neg h2]

theorem shape_padresize (img : Img) (mask : Option Img) (size : ℕ × ℕ)
    (hr : 0 < rowsOf img) (hH : 0 < size.1)
    (hm : ∀ m, mask = some m → shape m = shape img) :
    colsOf (padresize_to_width img size mask).1 = size.2
    ∧ rowsOf (padresize_to_width img size mask).1
        = (if size.2 < colsOf img then size.1 else rowsOf img)
    ∧ (∀ m, (padresize_to_width img size mask).2 = some m →
        shape m = shape (padresize_to_width img size mask).1) := by
  rcases lt_trichotomy (colsOf img) size.2 with h | h | h
  · rw [(padresize_branches img mask size).1 h]
    refine ⟨?_, ?_, ?_⟩
    · rw [colsOf_pad, if_neg (Nat.pos_iff_ne_zero.mp hr)]
      omega
    · have h2 : ¬ size.2 < colsOf img := by omega
      rw [rowsOf_pad, if_neg h2]
    · intro m hmem
      cases mask with
      | none => simp at hmem
      | some m0 =>
        have hmem2 : copyMakeBorderRight m0 (size.2 - colsOf img) = m := by
          simpa using hmem
        subst hmem2
        have hs := hm m0 rfl
        have hrows : rowsOf m0 = rowsOf img := congrArg Prod.fst hs
        have hcols : colsOf m0 = colsOf img := congrArg Prod.snd hs
        simp [shape, rowsOf_pad, colsOf_pad, hrows, hcols]
  · rw [(padresize_branches img mask size).2.2 h]
    refine ⟨h, by rw [if_neg (by omega)], ?_⟩
    intro m hmem
    cases mask with
    | none => simp at hmem
    | some m0 =>
      have hmem2 : m0 = m := by simpa using hmem
      subst hmem2
      exact hm m0 rfl
  · rw [(padresize_branches img mask size).2.1 h]
    refine ⟨?_, ?_, ?_⟩
    · rw [colsOf_resizeLinear, if_neg (Nat.pos_iff_ne_zero.mp hH)]
    · rw [rowsOf_resizeLinear, if_pos h]
    · intro m hmem
      cases mask with
      | none => simp at hmem
      | some m0 =>
        have hmem2 : resizeNearest m0 size.2 size.1 = m := by simpa using hmem
        subst hmem2
        exact (shape_resize_eq img m0 size.2 size.1).symm

/-- C2: _padresize_to_width always produces output of width exactly size.2: a
narrower input is right-padded with zero columns, a wider input is forcibly
resized to (size.1, size.2), an input of equal width passes unchanged; and
composed after _resize_to_height the final image (and mask) shape equals the
target size exactly. -/
theorem padresize_to_width_exact_width (img : Img) (mask : Option Img)
    (size : ℕ × ℕ) (hr : 0 < rowsOf img) (hH : 0 < size.1)
    (hm : ∀ m, mask = some m → shape m = shape img) :
    (colsOf img < size.2 →
      padresize_to_width img size mask
        = (copyMakeBorderRight img (size.2 - colsOf img),
           mask.map (fun m => copyMakeBorderRight m (size.2 - colsOf img))))
    ∧ (size.2 < colsOf img →
      padresize_to_width img size mask
        = (resizeLinear img size.2 size.1,
           mask.map (fun m => resizeNearest m size.2 size.1)))
    ∧ (colsOf img = size.2 → padresize_to_width img size mask = (img, mask))
    ∧ colsOf (padresize_to_width img size mask).1 = size.2
    ∧ (∀ m, (padresize_to_width img size mask).2 = some m → colsOf m = size.2)
    ∧ shape (padresize_to_width (resize_to_height img size mask).1 size
        (resize_to_height img size mask).2).1 = size
    ∧ (∀ m, (padresize_to_width (resize_to_height img size mask).1 size
        (resize_to_height img size mask).2).2 = some m → shape m = size) := by
  have hbr := padresize_branches img mask size
  have hsh := shape_padresize img mask size hr hH hm
  have hri : 0 < rowsOf (resize_to_height img size mask).1 := by
    simp only [resize_to_height, rowsOf_resizeLinear]
    exact hH
  have hmi : ∀ m, (resize_to_height img size mask).2 = some m →
      shape m = shape (resize_to_height img size mask).1 := by
    intro m hmem
    cases mask with
    | none => simp [resize_to_height] at hmem
    | some m0 =>
      have hmem2 : resizeNearest m0 (size.1 * colsOf img / rowsOf img) size.1
          = m := by
        simpa [resize_to_height] using hmem
      subst hmem2
      exact (shape_resize_eq img m0 _ size.1).symm
  have hsh2 := shape_padresize (resize_to_height img size mask).1
    (resize_to_height img size mask).2 size hri hH hmi
  refine ⟨hbr.1, hbr.2.1, hbr.2.2, hsh.1, ?_, ?_, ?_⟩
  · intro m hmem
    have := congrArg Prod.snd (hsh.2.2 m hmem)
    simpa [shape, hsh.1] using this
  · have hrows : rowsOf (padresize_to_width (resize_to_height img size mask).1
        size (resize_to_height img size mask).2).1 = size.1 := by
      rw [hsh2.2.1]
      split_ifs with hc
      · rfl
      · simp only [resize_to_height, rowsOf_resizeLinear]
    have : shape (padresize_to_width (resize_to_height img size mask).1 size
        (resize_to_height img size mask).2).1 = (size.1, size.2) := by
      rw [shape, hrows, hsh2.1]
    rw [this]
  · intro m hmem
    have hfinal : shape (padresize_to_width (resize_to_height img size mask).1
        size (resize_to_height img size mask).2).1 = (size.1, size.2) := by
      rw [shape, hsh2.1]
      rw [hsh2.2.1]
      split_ifs with hc
      · rfl
      · simp only [resize_to_height, rowsOf_resizeLinear]
    rw [hsh2.2.2 m hmem, hfinal]

/-- C2 witness: a 1 by 1 image padded towards target size (2, 3). -/
theorem padresize_to_width_exact_width_witness :
    0 < rowsOf [[(7 : ℚ)]] ∧ 0 < ((2 : ℕ), (3 : ℕ)).1
    ∧ colsOf (padresize_to_width [[(7 : ℚ)]] (2, 3) none).1 = (2, 3).2 :=
  ⟨by norm_num [rowsOf], by norm_num,
    (padresize_to_width_exact_width [[(7 : ℚ)]] none (2, 3)
      (by norm_num [rowsOf]) (by norm_num)
      (by intro m hmem; simp at hmem)).2.2.2.1⟩

theorem shape_slice2d_eq (a b : Img) (hwa : Wf a) (hwb : Wf b)
    (hs : shape a = shape b) (y1 y2 x1 x2 : ℕ) :
    shape (slice2d a y1 y2 x1 x2) = shape (slice2d b y1 y2 x1 x2) := by
  have hrows : rowsOf a = rowsOf b := congrArg Prod.fst hs
  have hcols : colsOf a = colsOf b := congrArg Prod.snd hs
  simp [shape, rowsOf_slice2d, colsOf_slice2d, hwa, hwb, hrows, hcols]

/-- C1: for every image paired with a mask of identical shape, each geometric
transform — side-correct, resize-to-height, pad-or-resize-to-width and
crop-to-ROI — returns an image and a mask of identical shape; moreover
whenever the mask is resampled it goes through the nearest-neighbour sampler
at the same target dimensions as the image. -/
theorem geometric_transforms_preserve_mask_shape (env : CvEnv) (img mask : Img)
    (size : ℕ × ℕ) (hwi : Wf img) (hwm : Wf mask)
    (hs : shape img = shape mask) :
    (correct_side img (some mask)).2.map shape
        = some (shape (correct_side img (some mask)).1)
    ∧ (resize_to_height img size (some mask)).2.map shape
        = some (shape (resize_to_height img size (some mask)).1)
    ∧ (resize_to_height img size (some mask)).2
        = some (resizeNearest mask (size.1 * colsOf img / rowsOf img) size.1)
    ∧ (padresize_to_width img size (some mask)).2.map shape
        = some (shape (padresize_to_width img size (some mask)).1)
    ∧ (size.2 < colsOf img →
        (padresize_to_width img size (some mask)).2
          = some (resizeNearest mask size.2 size.1))
    ∧ (∀ out, crop_roi env img (some mask) = .ok out →
        out.2.map shape = some (shape out.1)) := by
  have hrows : rowsOf img = rowsOf mask := congrArg Prod.fst hs
  have hcols : colsOf img = colsOf mask := congrArg Prod.snd hs
  refine ⟨?_, ?_, ?_, ?_, fun h => ?_, fun out hok => ?_⟩
  · simp only [correct_side]
    split_ifs with hc
    · simp [← hs]
    · simp [shape_fliplr, ← hs]
  · simp only [resize_to_height, Option.map_some]
    exact congrArg some (shape_resize_eq img mask _ size.1).symm
  · rfl
  · rcases lt_trichotomy (colsOf img) size.2 with h | h | h
    · rw [(padresize_branches img (some mask) size).1 h]
      simp only [Option.map_some]
      refine congrArg some ?_
      simp [shape, rowsOf_pad, colsOf_pad, hrows, hcols]
    · rw [(padresize_branches img (some mask) size).2.2 h]
      simp [← hs]
    · rw [(padresize_branches img (some mask) size).2.1 h]
      simp only [Option.map_some]
      exact congrArg some (shape_resize_eq img mask size.2 size.1).symm
  · rw [(padresize_branches img (some mask) size).2.1 h]
    rfl
  · rw [crop_roi] at hok
    cases hc : find_contours env (binarize img) with
    | error e =>
      rw [hc] at hok
      simp [bind, Except.bind] at hok
    | ok c =>
      rw [hc] at hok
      simp only [bind, Except.bind, pure, Except.pure, Except.ok.injEq] at hok
      subst hok
      simp only [Option.map_some]
      exact congrArg some
        (shape_slice2d_eq mask img hwm hwi hs.symm _ _ _ _)

/-- C1 witness on a concrete 2 by 2 image and mask pair. -/
theorem geometric_transforms_preserve_mask_shape_witness :
    Wf [[(1 : ℚ), 2], [3, 4]] ∧ Wf [[(5 : ℚ), 6], [7, 8]]
    ∧ shape [[(1 : ℚ), 2], [3, 4]] = shape [[(5 : ℚ), 6], [7, 8]]
    ∧ (correct_side [[(1 : ℚ), 2], [3, 4]] (some [[(5 : ℚ), 6], [7, 8]])).2.map shape
        = some (shape (correct_side [[(1 : ℚ), 2], [3, 4]]
            (some [[(5 : ℚ), 6], [7, 8]])).1) :=
  ⟨by decide, by decide, by decide,
    (geometric_transforms_preserve_mask_shape envNone [[(1 : ℚ), 2], [3, 4]]
      [[(5 : ℚ), 6], [7, 8]] (4, 2) (by decide) (by decide) (by decide)).1⟩

theorem rowsOf_binarize (img : Img) : rowsOf (binarize img) = rowsOf img := by
  simp [binarize, rowsOf]

theorem colsOf_binarize (img : Img) : colsOf (binarize img) = colsOf img := by
  cases img with
  | nil => rfl
  | cons r t => simp [binarize, colsOf]

/-- C4 counterexample: on the 1 by 1 image [[2]] whose largest contour is the
single point (0, 0) with filled region {(0, 0)}, _remove_background returns
[[510]]: the pixel inside the filled region becomes 255 times the input value
instead of staying equal to it, because the contour mask is drawn with the
value 255 and never binarized to 0/1 on the default path. -/
theorem remove_background_scales_inside :
    remove_background envUnit [[2]] = .ok [[510]] ∧ (510 : ℚ) ≠ 2 := by
  constructor
  · simp [remove_background, find_contours, envUnit, pymaxBy, binarize, imgMax,
      drawContoursFilled, imgMul, rowsOf, colsOf, List.range_succ, pixel, bind,
      Except.bind, pure, Except.pure]
    norm_num
  · norm_num

/-- C4 amended: _remove_background multiplies the image elementwise with the
0/255-valued filled contour mask, so every pixel inside the filled region
equals 255 times the input pixel and every pixel outside the region is 0. -/
theorem remove_background_mul_filled_mask (env : CvEnv) (img : Img)
    (hw : Wf img) (contour : Contour)
    (hc : find_contours env (binarize img) = .ok contour) (i j : ℕ)
    (hi : i < rowsOf img) (hj : j < colsOf img) :
    ∃ out, remove_background env img = .ok out
      ∧ pixel out i j
        = if (j, i) ∈ env.filledRegion contour then 255 * pixel img i j
          else 0 := by
  refine ⟨imgMul img (drawContoursFilled (rowsOf (binarize img))
    (colsOf (binarize img)) (env.filledRegion contour)), ?_, ?_⟩
  · simp only [remove_background, hc, bind, Except.bind, pure, Except.pure]
  · have hib : i < (drawContoursFilled (rowsOf (binarize img))
        (colsOf (binarize img)) (env.filledRegion contour)).length := by
      simp [drawContoursFilled, rowsOf_binarize]
      exact hi
    have hja : j < (img.getD i []).length := by
      rw [hw _ (getD_mem_of_lt img i [] hi)]
      exact hj
    have hjb : j < ((drawContoursFilled (rowsOf (binarize img))
        (colsOf (binarize img)) (env.filledRegion contour)).getD i []).length := by
      rw [drawContoursFilled, getD_rangeMap_of_lt]
      · simp [colsOf_binarize]
        exact hj
      · rw [rowsOf_binarize]
        exact hi
    rw [pixel_imgMul img _ i j hi hib hja hjb,
      pixel_drawContoursFilled _ _ _ i j (by rw [rowsOf_binarize]; exact hi)
        (by rw [colsOf_binarize]; exact hj)]
    split_ifs with hmem
    · ring
    · ring

/-- C4 witness at the concrete 1 by 1 image. -/
theorem remove_background_mul_filled_mask_witness :
    find_contours envUnit (binarize [[2]]) = .ok [(0, 0)]
    ∧ (∃ out, remove_background envUnit [[2]] = .ok out
        ∧ pixel out 0 0
          = if ((0 : ℕ), (0 : ℕ)) ∈ envUnit.filledRegion [(0, 0)]
            then 255 * pixel [[2]] 0 0 else 0) :=
  ⟨by rfl, remove_background_mul_filled_mask envUnit [[2]] (by decide) [(0, 0)]
    (by rfl) 0 0 (by decide) (by decide)⟩

/-- C9 counterexample: on an all-zero image the code fails with the generic
Python ValueError raised by max() over the empty contour list, not with the
dedicated DegenerateRegion error kind the claim names. -/
theorem find_contours_generic_value_error :
    find_contours envNone (binarize (zeroImg 3 3)) = .error .valueErrorEmptyMax
    ∧ Err.valueErrorEmptyMax ≠ Err.degenerateRegion := by
  exact ⟨rfl, by decide⟩

/-- C9 amended: whenever cv2.findContours returns no contour on the binarized
image — its documented behaviour on an all-zero input — _find_contours and the
transforms that consume it fail with the generic empty-sequence ValueError of
Python max, a fatal propagated error for that image: no empty crop region is
produced silently, but no dedicated DegenerateRegion error kind exists. -/
theorem find_contours_empty_err (env : CvEnv) (h w : ℕ)
    (hcv : env.findContours (binarize (zeroImg h w)) = []) :
    find_contours env (binarize (zeroImg h w)) = .error .valueErrorEmptyMax
    ∧ crop_roi env (zeroImg h w) none = .error .valueErrorEmptyMax
    ∧ remove_background env (zeroImg h w) = .error .valueErrorEmptyMax := by
  have h1 : find_contours env (binarize (zeroImg h w))
      = .error .valueErrorEmptyMax := by
    simp only [find_contours, hcv]
    rfl
  refine ⟨h1, ?_, ?_⟩
  · simp only [crop_roi, h1, bind, Except.bind]
  · simp only [remove_background, h1, bind, Except.bind]

/-- C9 witness with the concrete contour-free cv2 capability. -/
theorem find_contours_empty_err_witness :
    envNone.findContours (binarize (zeroImg 2 2)) = []
    ∧ find_contours envNone (binarize (zeroImg 2 2)) = .error .valueErrorEmptyMax
    ∧ crop_roi envNone (zeroImg 2 2) none = .error .valueErrorEmptyMax
    ∧ remove_background envNone (zeroImg 2 2) = .error .valueErrorEmptyMax :=
  ⟨rfl, (find_contours_empty_err envNone 2 2 rfl).1,
    (find_contours_empty_err envNone 2 2 rfl).2.1,
    (find_contours_empty_err envNone 2 2 rfl).2.2⟩

/-- C10 counterexample: with a metadata table containing no row for the image
path, _combine_masks returns the scalar 0 — it proceeds with a substituted
degenerate mask value instead of raising or returning a MetadataMismatch
error kind. -/
theorem combine_masks_no_match_scalar_zero :
    combine_masks [⟨"b.dcm", [[255]], 1⟩] "a.dcm" = Labels.scalar 0 := by
  rfl

/-- C10 amended: when no metadata row matches the image path, _combine_masks
returns the degenerate scalar 0 (the unchanged Python int accumulator) and no
error value of any kind; downstream stages then operate on this scalar. -/
theorem combine_masks_no_match (df : List MaskRow) (path : String)
    (hempty : df.filter (fun r => r.full_img_fname == path) = []) :
    combine_masks df path = Labels.scalar 0 := by
  simp only [combine_masks, hempty]
  rfl

/-- C10 witness on a one-row table and a path that matches nothing. -/
theorem combine_masks_no_match_witness :
    ([⟨"b.dcm", [[255]], 1⟩] : List MaskRow).filter
        (fun r => r.full_img_fname == "c.dcm") = []
    ∧ combine_masks [⟨"b.dcm", [[255]], 1⟩] "c.dcm" = Labels.scalar 0 :=
  ⟨by rfl, combine_masks_no_match [⟨"b.dcm", [[255]], 1⟩] "c.dcm" (by rfl)⟩

/-! Rectangularity machinery for the mask compositor. -/

/-- An h by w rectangular array. -/
def Rect (h w : ℕ) (img : Img) : Prop :=
  img.length = h ∧ ∀ r ∈ img, r.length = w

instance (h w : ℕ) (img : Img) : Decidable (Rect h w img) := by
  unfold Rect
  infer_instance

theorem row_len_of_rect (h w : ℕ) (m : Img) (hm : Rect h w m) (i : ℕ)
    (hi : i < h) : (m.getD i []).length = w :=
  hm.2 _ (getD_mem_of_lt m i [] (by rw [hm.1]; exact hi))

theorem mem_zipWith_cases {α : Type} (f : α → α → α) :
    ∀ (a b : List α) (r : α), r ∈ List.zipWith f a b →
      ∃ x ∈ a, ∃ y ∈ b, r = f x y
  | [], _, r, hr => by simp at hr
  | _ :: _, [], r, hr => by simp at hr
  | x :: xs, y :: ys, r, hr => by
    rcases List.mem_cons.mp hr with h | h
    · exact ⟨x, List.mem_cons_self x xs, y, List.mem_cons_self y ys, h⟩
    · rcases mem_zipWith_cases f xs ys r h with ⟨x2, hx2, y2, hy2, he⟩
      exact ⟨x2, List.mem_cons_of_mem x hx2, y2, List.mem_cons_of_mem y hy2, he⟩

theorem rect_imgAdd (h w : ℕ) (a b : Img) (ha : Rect h w a) (hb : Rect h w b) :
    Rect h w (imgAdd a b) := by
  constructor
  · rw [imgAdd, List.length_zipWith, ha.1, hb.1, min_self]
  · intro r hr
    rcases mem_zipWith_cases _ a b r hr with ⟨x, hx, y, hy, he⟩
    rw [he, List.length_zipWith, ha.2 x hx, hb.2 y hy, min_self]

theorem rect_mapmap (f : ℚ → ℚ) (h w : ℕ) (m : Img) (hm : Rect h w m) :
    Rect h w (m.map (List.map f)) := by
  constructor
  · rw [List.length_map, hm.1]
  · intro r hr
    rcases List.mem_map.mp hr with ⟨s, hs, he⟩
    rw [← he, List.length_map, hm.2 s hs]

theorem pixel_imgAdd_rect (h w : ℕ) (a b : Img) (ha : Rect h w a)
    (hb : Rect h w b) (i j : ℕ) (hi : i < h) (hj : j < w) :
    pixel (imgAdd a b) i j = pixel a i j + pixel b i j :=
  pixel_imgAdd a b i j (by rw [ha.1]; exact hi) (by rw [hb.1]; exact hi)
    (by rw [row_len_of_rect h w a ha i hi]; exact hj)
    (by rw [row_len_of_rect h w b hb i hi]; exact hj)

theorem pixel_mapmap_rect (f : ℚ → ℚ) (h w : ℕ) (m : Img) (hm : Rect h w m)
    (i j : ℕ) (hi : i < h) (hj : j < w) :
    pixel (m.map (List.map f)) i j = f (pixel m i j) :=
  pixel_mapmap f m i j (by rw [hm.1]; exact hi)
    (by rw [row_len_of_rect h w m hm i hi]; exact hj)

theorem addLabels_scalar_zero (m : Img) :
    addLabels (Labels.scalar 0) m = Labels.arr m := by
  simp [addLabels]

theorem labelAt_foldl_addLabels (l : List Img) (acc : Img) (h w i j : ℕ)
    (hacc : Rect h w acc) (hl : ∀ m ∈ l, Rect h w m) (hi : i < h) (hj : j < w) :
    labelAt (l.foldl (fun L m => addLabels L m) (Labels.arr acc)) i j
      = pixel acc i j + (l.map (fun m => pixel m i j)).sum := by
  induction l generalizing acc with
  | nil => simp [labelAt]
  | cons m t ih =>
    have hm := hl m (List.mem_cons_self m t)
    have hstep : (m :: t).foldl (fun L m => addLabels L m) (Labels.arr acc)
        = t.foldl (fun L m => addLabels L m) (Labels.arr (imgAdd acc m)) := rfl
    rw [hstep, ih (imgAdd acc m) (rect_imgAdd h w acc m hacc hm)
      (fun x hx => hl x (List.mem_cons_of_mem m hx)),
      pixel_imgAdd_rect h w acc m hacc hm i j hi hj]
    simp only [List.map_cons, List.sum_cons]
    ring

theorem rect_scaleImg_maskPx (c : ℚ) (h w : ℕ) (raw : Img)
    (hr : Rect h w raw) : Rect h w (scaleImg c (maskPx raw)) :=
  rect_mapmap _ h w _ (rect_mapmap _ h w raw hr)

theorem pixel_scaleImg_maskPx (c : ℚ) (raw : Img) (h w i j : ℕ)
    (hr : Rect h w raw) (hi : i < h) (hj : j < w) :
    pixel (scaleImg c (maskPx raw)) i j = toUint8 (pixel raw i j / 255) * c := by
  rw [scaleImg,
    pixel_mapmap_rect (fun p => p * c) h w (maskPx raw)
      (rect_mapmap _ h w raw hr) i j hi hj,
    maskPx, pixel_mapmap_rect _ h w raw hr i j hi hj]

/-- C7 counterexample: a mask file pixel of value 100 — nonzero — is mapped by
the code to floor(100 / 255) = 0, not to 1 as the claimed any-nonzero-becomes-1
binarization prescribes, so the combined label at that pixel is 0 instead of
the pathology code 1. -/
theorem combine_masks_not_binarized :
    combine_masks [⟨"p.dcm", [[100]], 1⟩] "p.dcm" = Labels.arr [[0]]
    ∧ maskBinarizeSpec 100 * 1 = 1
    ∧ (0 : ℚ) ≠ 1 := by
  refine ⟨?_, ?_, by norm_num⟩
  · simp [combine_masks, addLabels, scaleImg, maskPx, toUint8]
    norm_num
  · simp [maskBinarizeSpec]

/-- C7 amended: for every image path, the combined label of _combine_masks at
a pixel (i, j) is the sum, over the metadata rows matching the path, of the
pathology code times uint8(floor(mask pixel / 255)) — which is the 0/1
indicator only for masks valued in {0, 255}; for such masks two overlapping
abnormalities of codes 1 and 2 give the combined value 3. -/
theorem combine_masks_pixel_sum (df : List MaskRow) (path : String)
    (h w i j : ℕ)
    (hrect : ∀ r ∈ df.filter (fun r => r.full_img_fname == path),
      Rect h w r.maskPixelData)
    (hi : i < h) (hj : j < w) :
    labelAt (combine_masks df path) i j
      = ((df.filter (fun r => r.full_img_fname == path)).map
          (fun r => toUint8 (pixel r.maskPixelData i j / 255) * r.pathology)).sum := by
  simp only [combine_masks]
  cases hl : df.filter (fun r => r.full_img_fname == path) with
  | nil => simp [labelAt]
  | cons r t =>
    rw [hl] at hrect
    have hr0 : Rect h w r.maskPixelData := hrect r (List.mem_cons_self r t)
    have hstep : (r :: t).foldl
        (fun labels r =>
          addLabels labels (scaleImg r.pathology (maskPx r.maskPixelData)))
        (Labels.scalar 0)
        = t.foldl
          (fun labels r =>
            addLabels labels (scaleImg r.pathology (maskPx r.maskPixelData)))
          (Labels.arr (scaleImg r.pathology (maskPx r.maskPixelData))) := by
      rw [List.foldl_cons, addLabels_scalar_zero]
    rw [hstep, ← List.foldl_map
      (fun r => scaleImg r.pathology (maskPx r.maskPixelData))
      (fun L m => addLabels L m) t,
      labelAt_foldl_addLabels _ _ h w i j
        (rect_scaleImg_maskPx r.pathology h w _ hr0)
        (by
          intro m hm
          rcases List.mem_map.mp hm with ⟨r2, hr2, he⟩
          have := hrect r2 (List.mem_cons_of_mem r hr2)
          rw [← he]
          exact rect_scaleImg_maskPx r2.pathology h w _ this)
        hi hj,
      pixel_scaleImg_maskPx r.pathology r.maskPixelData h w i j hr0 hi hj,
      List.map_map, List.map_cons, List.sum_cons]
    congr 1
    apply congrArg
    apply List.map_congr_left
    intro r2 hr2
    exact pixel_scaleImg_maskPx r2.pathology r2.maskPixelData h w i j
      (hrect r2 (List.mem_cons_of_mem r hr2)) hi hj

/-- C7 witness: two overlapping 0/255 masks with codes 1 and 2 combine to 3. -/
theorem combine_masks_pixel_sum_witness :
    (∀ r ∈ ([⟨"p", [[255]], 1⟩, ⟨"p", [[255]], 2⟩] : List MaskRow).filter
        (fun r => r.full_img_fname == "p"), Rect 1 1 r.maskPixelData)
    ∧ labelAt (combine_masks [⟨"p", [[255]], 1⟩, ⟨"p", [[255]], 2⟩] "p") 0 0
      = ((([⟨"p", [[255]], 1⟩, ⟨"p", [[255]], 2⟩] : List MaskRow).filter
          (fun r => r.full_img_fname == "p")).map
          (fun r => toUint8 (pixel r.maskPixelData 0 0 / 255) * r.pathology)).sum
    ∧ labelAt (combine_masks [⟨"p", [[255]], 1⟩, ⟨"p", [[255]], 2⟩] "p") 0 0
      = 3 := by
  have hrect : ∀ r ∈ ([⟨"p", [[255]], 1⟩, ⟨"p", [[255]], 2⟩] : List MaskRow).filter
      (fun r => r.full_img_fname == "p"), Rect 1 1 r.maskPixelData := by
    intro r hr
    rcases List.mem_filter.mp hr with ⟨hm, _⟩
    rcases List.mem_cons.mp hm with he | hm2
    · rw [he]; decide
    · rcases List.mem_cons.mp hm2 with he | hm3
      · rw [he]; decide
      · simp at hm3
  have hmain := combine_masks_pixel_sum
    [⟨"p", [[255]], 1⟩, ⟨"p", [[255]], 2⟩] "p" 1 1 0 0 hrect
    (by norm_num) (by norm_num)
  refine ⟨hrect, hmain, ?_⟩
  rw [hmain]
  simp [pixel, toUint8]
  norm_num

/-- C8 counterexample: the non-constant input [[254, 255]] maps to
[[254, 255]], whose maximum is 255 but whose minimum is 254, so the output
range is not [0, 255] for every non-constant input. -/
theorem convert_to_8bit_min_not_zero :
    convert_to_8bit [[254, 255]] = [[254, 255]]
    ∧ (254 : ℚ) ≠ 255
    ∧ ¬ (0 : ℚ) ∈ [(254 : ℚ), 255] := by
  refine ⟨?_, by norm_num, by norm_num⟩
  simp [convert_to_8bit, imgMax, toUint8]
  norm_num
  simp

theorem toUint8_bounds (q : ℚ) : 0 ≤ toUint8 q ∧ toUint8 q ≤ 255 := by
  rw [toUint8]
  constructor
  · exact_mod_cast Nat.zero_le _
  · exact_mod_cast Nat.le_of_lt_succ (Nat.mod_lt _ (by norm_num))

theorem toUint8_eq_zero_iff (v : ℚ) (h0 : 0 ≤ v) (h255 : v ≤ 255) :
    toUint8 v = 0 ↔ v < 1 := by
  rw [toUint8]
  constructor
  · intro hz
    have hn : ⌊v⌋.toNat % 256 = 0 := by exact_mod_cast hz
    have hfle : ⌊v⌋ ≤ 255 := by
      have := Int.floor_le_floor h255
      simpa using this
    have hfnn : 0 ≤ ⌊v⌋ := Int.floor_nonneg.mpr h0
    have hflz : ⌊v⌋ = 0 := by omega
    have := Int.floor_eq_zero_iff.mp hflz
    exact this.2
  · intro hlt
    have hflz : ⌊v⌋ = 0 := Int.floor_eq_zero_iff.mpr ⟨h0, hlt⟩
    rw [hflz]
    norm_num

/-- C8 amended: _convert_to_8bit rescales by the image maximum only: every
output value lies in [0, 255] and the value 255 is always attained at a
maximal pixel, but the value 0 is attained exactly when some input pixel p
satisfies p * 255 < max — for instance a zero pixel — and not for every
non-constant input. -/
theorem convert_to_8bit_range (img : Img)
    (hnn : ∀ r ∈ img, ∀ p ∈ r, 0 ≤ p) (hmax : 0 < imgMax img) :
    (∀ r ∈ convert_to_8bit img, ∀ q ∈ r, 0 ≤ q ∧ q ≤ 255)
    ∧ (∃ r ∈ convert_to_8bit img, (255 : ℚ) ∈ r)
    ∧ ((∃ r ∈ convert_to_8bit img, (0 : ℚ) ∈ r)
        ↔ ∃ r ∈ img, ∃ p ∈ r, p * 255 < imgMax img) := by
  have hMne : imgMax img ≠ 0 := ne_of_gt hmax
  have hval : ∀ r0 ∈ img, ∀ p ∈ r0,
      0 ≤ p / imgMax img * 255 ∧ p / imgMax img * 255 ≤ 255 := by
    intro r0 hr0 p hp
    have hpnn := hnn r0 hr0 p hp
    have hple := pixel_le_imgMax img r0 p hr0 hp
    constructor
    · positivity
    · have hd : p / imgMax img ≤ 1 := (div_le_one hmax).mpr hple
      nlinarith
  refine ⟨?_, ?_, ?_⟩
  · intro r hr q hq
    rcases List.mem_map.mp hr with ⟨r0, hr0, he⟩
    rw [← he] at hq
    rcases List.mem_map.mp hq with ⟨p, hp, hpe⟩
    rw [← hpe]
    exact toUint8_bounds _
  · rcases imgMax_attained img hMne with ⟨r, hr, hmem⟩
    refine ⟨r.map (fun p => toUint8 (p / imgMax img * 255)),
      List.mem_map_of_mem _ hr, ?_⟩
    have h255 : toUint8 (imgMax img / imgMax img * 255) = 255 := by
      rw [div_self hMne, one_mul]
      rw [toUint8]
      norm_num
      simp
    have hin : toUint8 (imgMax img / imgMax img * 255)
        ∈ r.map (fun p => toUint8 (p / imgMax img * 255)) :=
      List.mem_map_of_mem _ hmem
    rw [h255] at hin
    exact hin
  · constructor
    · intro hex
      rcases hex with ⟨r, hr, h0⟩
      rcases List.mem_map.mp hr with ⟨r0, hr0, he⟩
      rw [← he] at h0
      rcases List.mem_map.mp h0 with ⟨p, hp, hpe⟩
      have hv := hval r0 hr0 p hp
      have hlt1 : p / imgMax img * 255 < 1 :=
        (toUint8_eq_zero_iff _ hv.1 hv.2).mp hpe
      refine ⟨r0, hr0, p, hp, ?_⟩
      have : p * 255 / imgMax img < 1 := by
        rw [div_mul_eq_mul_div] at hlt1
        exact hlt1
      exact (div_lt_one hmax).mp this
    · intro hex
      rcases hex with ⟨r0, hr0, p, hp, hlt⟩
      have hv := hval r0 hr0 p hp
      have hlt1 : p / imgMax img * 255 < 1 := by
        rw [div_mul_eq_mul_div]
        exact (div_lt_one hmax).mpr hlt
      refine ⟨r0.map (fun p => toUint8 (p / imgMax img * 255)),
        List.mem_map_of_mem _ hr0, ?_⟩
      have hz : toUint8 (p / imgMax img * 255) = 0 :=
        (toUint8_eq_zero_iff _ hv.1 hv.2).mpr hlt1
      have hin : toUint8 (p / imgMax img * 255)
          ∈ r0.map (fun p => toUint8 (p / imgMax img * 255)) :=
        List.mem_map_of_mem _ hp
      rw [hz] at hin
      exact hin

/-- C8 witness on [[0, 2]]: the output attains 255. -/
theorem convert_to_8bit_range_witness :
    (∀ r ∈ ([[0, 2]] : Img), ∀ p ∈ r, 0 ≤ p) ∧ 0 < imgMax [[0, 2]]
    ∧ (∃ r ∈ convert_to_8bit [[0, 2]], (255 : ℚ) ∈ r) := by
  have h1 : ∀ r ∈ ([[0, 2]] : Img), ∀ p ∈ r, 0 ≤ p := by
    intro r hr p hp
    simp at hr
    rw [hr] at hp
    rcases List.mem_cons.mp hp with he | hp2
    · rw [he]
    · simp at hp2
      rw [hp2]
      norm_num
  have h2 : 0 < imgMax [[0, 2]] := by
    norm_num [imgMax, max_def]
  exact ⟨h1, h2, (convert_to_8bit_range [[0, 2]] h1 h2).2.1⟩

end Mammo
